import Mathlib

/-!
Verification of the split-ordered lock-free hash table
(`src/homework/src/hash_table/split_ordered_list.rs`) and its segment-tree
index (`src/homework/src/hash_table/growable_array.rs`).

The development is a sequential shallow embedding: machine integers
(`usize`, 64-bit) become `Nat` with explicit bounds, the atomic fields
become plain state threaded through each operation, and the lock-free
sorted list collaborator (crate `lockfree`, outside this repository)
is modelled from the spec as a sorted association list with
insert-if-absent and remove semantics.  Loops of the source become
fuel-based structural recursions; the fuel supplied at each call site is
proved (or noted) sufficient, so the functions agree with the source
loops on every input the source can reach.
-/

/-- Bit reversal of the low `w` bits of `n`: Rust `usize::reverse_bits`
is `reverseBits 64` on a 64-bit platform. -/
def reverseBits : Nat → Nat → Nat
| 0, _ => 0
| w + 1, n => n % 2 * 2 ^ w + reverseBits w (n / 2)

/-- Rust `usize::reverse_bits` (64-bit). -/
def rev64 (n : Nat) : Nat := reverseBits 64 n

/-- Transformed key of the sentinel node of bucket `index`:
`index.reverse_bits()` in `initialize_bucket`. -/
def sentinelKey (i : Nat) : Nat := rev64 i

/-- Transformed key of a regular entry with key `k`:
`((*key) | (1 << 63)).reverse_bits()` in `find` and `insert`. -/
def regularKey (k : Nat) : Nat := rev64 (k ||| 2 ^ 63)

theorem reverseBits_lt (w : Nat) : ∀ n : Nat, reverseBits w n < 2 ^ w := by
  induction w with
  | zero => intro n; simp [reverseBits]
  | succ w ih =>
    intro n
    have h1 : n % 2 ≤ 1 := by omega
    have h2 := ih (n / 2)
    have h3 : n % 2 * 2 ^ w ≤ 1 * 2 ^ w := Nat.mul_le_mul_right _ h1
    simp only [reverseBits]
    rw [pow_succ]
    omega

theorem reverseBits_le_of_testBit_imp (w : Nat) :
    ∀ n m : Nat, (∀ j, n.testBit j = true → m.testBit j = true) →
    reverseBits w n ≤ reverseBits w m := by
  induction w with
  | zero => intro n m _; simp [reverseBits]
  | succ w ih =>
    intro n m h
    simp only [reverseBits]
    have h0 : n % 2 ≤ m % 2 := by
      rcases Nat.mod_two_eq_zero_or_one n with h1 | h1
      · omega
      · have hb : n.testBit 0 = true := by simp [Nat.testBit_zero, h1]
        have := h 0 hb
        rw [Nat.testBit_zero] at this
        simp only [decide_eq_true_eq] at this
        omega
    have h2 : ∀ j, (n / 2).testBit j = true → (m / 2).testBit j = true := by
      intro j hj
      have hn : n.testBit (j + 1) = true := by rwa [Nat.testBit_succ]
      have := h (j + 1) hn
      rwa [Nat.testBit_succ] at this
    exact Nat.add_le_add (Nat.mul_le_mul_right _ h0) (ih _ _ h2)

theorem reverseBits_mod_two (w : Nat) :
    ∀ n : Nat, reverseBits (w + 1) n % 2 = n / 2 ^ w % 2 := by
  induction w with
  | zero => intro n; simp [reverseBits]
  | succ w ih =>
    intro n
    have hunfold : reverseBits (w + 1 + 1) n
        = n % 2 * 2 ^ (w + 1) + reverseBits (w + 1) (n / 2) := rfl
    have he : n % 2 * 2 ^ (w + 1) % 2 = 0 := by
      rw [pow_succ]
      simp [Nat.mul_mod]
    have h2 : reverseBits (w + 1) (n / 2) % 2 = (n / 2) / 2 ^ w % 2 := ih (n / 2)
    have h3 : n / 2 / 2 ^ w = n / 2 ^ (w + 1) := by
      rw [Nat.div_div_eq_div_mul, ← pow_succ']
    rw [hunfold]
    omega

theorem reverseBits_inj (w : Nat) :
    ∀ a b : Nat, a < 2 ^ w → b < 2 ^ w →
    reverseBits w a = reverseBits w b → a = b := by
  induction w with
  | zero => intro a b ha hb _; omega
  | succ w ih =>
    intro a b ha hb heq
    simp only [reverseBits] at heq
    have hra := reverseBits_lt w (a / 2)
    have hrb := reverseBits_lt w (b / 2)
    have hma : a % 2 ≤ 1 := by omega
    have hmb : b % 2 ≤ 1 := by omega
    have hmod : a % 2 = b % 2 := by
      rcases Nat.mod_two_eq_zero_or_one a with h1 | h1 <;>
      rcases Nat.mod_two_eq_zero_or_one b with h2 | h2 <;>
      simp [h1, h2] at heq ⊢ <;> omega
    rw [hmod] at heq
    have heq2 : reverseBits w (a / 2) = reverseBits w (b / 2) := by omega
    have hpow : 2 ^ (w + 1) = 2 ^ w * 2 := pow_succ 2 w
    have hda : a / 2 < 2 ^ w := by omega
    have hdb : b / 2 < 2 ^ w := by omega
    have := ih (a / 2) (b / 2) hda hdb heq2
    omega

/-- The sentinel key of a bucket index below `2^63` is even: the top bit
of the untransformed index is clear, so bit 0 of the reversal is clear. -/
theorem sentinelKey_even {i : Nat} (h : i < 2 ^ 63) : sentinelKey i % 2 = 0 := by
  unfold sentinelKey rev64
  rw [show (64 : Nat) = 63 + 1 from rfl, reverseBits_mod_two]
  rw [Nat.div_eq_of_lt h]

/-- The transformed key of a regular entry is odd: the forced top bit of
`key ||| 2^63` becomes bit 0 of the reversal. -/
theorem regularKey_odd (k : Nat) : regularKey k % 2 = 1 := by
  unfold regularKey rev64
  rw [show (64 : Nat) = 63 + 1 from rfl, reverseBits_mod_two]
  have hb : (k ||| 2 ^ 63).testBit 63 = true := by
    rw [Nat.testBit_lor, Nat.testBit_two_pow_self]
    simp
  rw [Nat.testBit_to_div_mod] at hb
  simpa using hb

theorem regularKey_inj {k1 k2 : Nat} (h1 : k1 < 2 ^ 63) (h2 : k2 < 2 ^ 63)
    (h : regularKey k1 = regularKey k2) : k1 = k2 := by
  unfold regularKey rev64 at h
  have hp : (2 : Nat) ^ 63 < 2 ^ 64 := by norm_num
  have hb1 : k1 ||| 2 ^ 63 < 2 ^ 64 :=
    Nat.bitwise_lt_two_pow (h1.trans hp) hp
  have hb2 : k2 ||| 2 ^ 63 < 2 ^ 64 :=
    Nat.bitwise_lt_two_pow (h2.trans hp) hp
  have hlor := reverseBits_inj 64 _ _ hb1 hb2 h
  apply Nat.eq_of_testBit_eq
  intro j
  by_cases hj : j < 63
  · have e1 : (k1 ||| 2 ^ 63).testBit j = k1.testBit j := by
      rw [Nat.testBit_lor, Nat.testBit_two_pow_of_ne (by omega), Bool.or_false]
    have e2 : (k2 ||| 2 ^ 63).testBit j = k2.testBit j := by
      rw [Nat.testBit_lor, Nat.testBit_two_pow_of_ne (by omega), Bool.or_false]
    rw [← e1, ← e2, hlor]
  · have hj' : 63 ≤ j := by omega
    have b1 : k1.testBit j = false :=
      Nat.testBit_lt_two_pow (h1.trans_le (Nat.pow_le_pow_right (by norm_num) hj'))
    have b2 : k2.testBit j = false :=
      Nat.testBit_lt_two_pow (h2.trans_le (Nat.pow_le_pow_right (by norm_num) hj'))
    rw [b1, b2]

/-- Fuel-based bit length: `bitLenAux f n` is the bit length of `n`
whenever `n < 2^f`. -/
def bitLenAux : Nat → Nat → Nat
| 0, _ => 0
| fuel + 1, n => if n = 0 then 0 else bitLenAux fuel (n / 2) + 1

/-- Bit length of a 64-bit value: `64 - n.leading_zeros()` in Rust. -/
def bitLen (n : Nat) : Nat := bitLenAux 64 n

/-- Rust `usize::leading_zeros` on a 64-bit platform. -/
def leadingZeros64 (n : Nat) : Nat := 64 - bitLen n

/-- `SplitOrderedList::assert_valid_key`: the assertion
`assert!(key.leading_zeros() != 0)` passes exactly when this is `true`. -/
def assert_valid_key (key : Nat) : Bool := leadingZeros64 key != 0

theorem bitLenAux_le (f : Nat) : ∀ n : Nat, bitLenAux f n ≤ f := by
  induction f with
  | zero => intro n; simp [bitLenAux]
  | succ f ih =>
    intro n
    simp only [bitLenAux]
    split
    · omega
    · have := ih (n / 2); omega

theorem lt_two_pow_bitLenAux (f : Nat) :
    ∀ n : Nat, n < 2 ^ f → n < 2 ^ bitLenAux f n := by
  induction f with
  | zero => intro n h; simpa [bitLenAux] using h
  | succ f ih =>
    intro n h
    simp only [bitLenAux]
    split
    · omega
    · have hd : n / 2 < 2 ^ f := by
        rw [pow_succ] at h; omega
      have := ih (n / 2) hd
      rw [pow_succ]
      omega

theorem bitLenAux_le_of_lt (f : Nat) :
    ∀ n k : Nat, n < 2 ^ k → bitLenAux f n ≤ k := by
  induction f with
  | zero => intro n k _; simp [bitLenAux]
  | succ f ih =>
    intro n k h
    simp only [bitLenAux]
    split
    · omega
    · rename_i hn
      rcases k with _ | k


      · simp at h; omega
      · have hd : n / 2 < 2 ^ k := by
          rw [pow_succ] at h; omega
        have := ih (n / 2) k hd
        omega

theorem assert_valid_key_iff {key : Nat} (h : key < 2 ^ 64) :
    assert_valid_key key = true ↔ key < 2 ^ 63 := by
  unfold assert_valid_key leadingZeros64 bitLen
  have hle := bitLenAux_le 64 key
  constructor
  · intro ht
    have hne : 64 - bitLenAux 64 key ≠ 0 := by simpa using ht
    have hlt : bitLenAux 64 key ≤ 63 := by omega
    have := lt_two_pow_bitLenAux 64 key h
    calc key < 2 ^ bitLenAux 64 key := this
    _ ≤ 2 ^ 63 := Nat.pow_le_pow_right (by norm_num) hlt
  · intro hk
    have := bitLenAux_le_of_lt 64 key 63 hk
    simp only [bne_iff_ne, ne_eq]
    omega

/-- Fuel-based model of the halving loop in `SplitOrderedList::get_parent`:
starting from `parent`, halve while `parent > index`.  Fuel `parent`
(the starting value) always suffices, since at most `log2 parent + 1 ≤ parent`
halvings reach a value `≤ index`. -/
def parentLoopAux : Nat → Nat → Nat → Nat
| 0, parent, _ => parent
| fuel + 1, parent, index =>
  if index < parent then parentLoopAux fuel (parent / 2) index else parent

/-- The halving loop of `SplitOrderedList::get_parent`. -/
def parent_loop (parent index : Nat) : Nat := parentLoopAux parent parent index

/-- `SplitOrderedList::get_parent`: halve a value initialized to `size`
until it is `≤ index`, then subtract it from `index`. -/
def get_parent (index size : Nat) : Nat := index - parent_loop size index

theorem parentLoopAux_le_index (f : Nat) :
    ∀ p i : Nat, p ≤ f → parentLoopAux f p i ≤ i := by
  induction f with
  | zero => intro p i hp; simp only [parentLoopAux]; omega
  | succ f ih =>
    intro p i hp
    simp only [parentLoopAux]
    split
    · rename_i hlt
      exact ih (p / 2) i (by omega)
    · omega

theorem parentLoopAux_pos (f : Nat) :
    ∀ p i : Nat, p ≤ f → 1 ≤ p → 1 ≤ i → 1 ≤ parentLoopAux f p i := by
  induction f with
  | zero => intro p i hp h1 _; omega
  | succ f ih =>
    intro p i hp h1 h2
    simp only [parentLoopAux]
    split
    · rename_i hlt
      exact ih (p / 2) i (by omega) (by omega) h2
    · omega

theorem parentLoopAux_pow (t : Nat) :
    ∀ f i : Nat, 1 ≤ i → i < 2 ^ t → 2 ^ t ≤ f →
    parentLoopAux f (2 ^ t) i = 2 ^ Nat.log2 i := by
  induction t with
  | zero => intro f i h1 h2 _; omega
  | succ t ih =>
    intro f i h1 h2 hf
    have hp : (2 : Nat) ^ (t + 1) = 2 ^ t * 2 := pow_succ 2 t
    have hpt : (1 : Nat) ≤ 2 ^ t := Nat.one_le_two_pow
    rcases f with _ | f
    · omega
    · simp only [parentLoopAux]
      rw [if_pos (by omega)]
      have hhalf : 2 ^ (t + 1) / 2 = 2 ^ t := by omega
      rw [hhalf]
      by_cases hc : i < 2 ^ t
      · exact ih f i h1 hc (by omega)
      · have hge : 2 ^ t ≤ i := by omega
        rcases f with _ | f
        · omega
        · simp only [parentLoopAux]
          rw [if_neg (by omega)]
          have hiz : i ≠ 0 := by omega
          have hl1 : t ≤ Nat.log2 i := (Nat.le_log2 hiz).mpr hge
          have hl2 : Nat.log2 i < t + 1 := (Nat.log2_lt hiz).mpr h2
          have : Nat.log2 i = t := by omega
          rw [this]

/-- Claim C10: for `index ≥ 1` and `size ≥ 1`, `get_parent index size`
is strictly below `index`, so the recursion of `initialize_bucket` on the
parent bucket (anchored at `index = 0`) terminates for every index. -/
theorem get_parent_decreases (index size : Nat)
    (hi : 1 ≤ index) (hs : 1 ≤ size) : get_parent index size < index := by
  unfold get_parent parent_loop
  have h1 := parentLoopAux_pos size size index (Nat.le_refl size) hs hi
  exact Nat.sub_lt hi h1

theorem get_parent_decreases_witness : get_parent 5 2 < 5 :=
  get_parent_decreases 5 2 (by decide) (by decide)

/-- Claim C6: for `1 ≤ index < size` with `size` a power of two,
`get_parent` returns `index` with its highest set bit (`2 ^ index.log2`)
cleared. -/
theorem get_parent_clears_highest_bit (index size : Nat)
    (h1 : 1 ≤ index) (h2 : index < size) (h3 : ∃ t, size = 2 ^ t) :
    get_parent index size = index - 2 ^ Nat.log2 index := by
  obtain ⟨t, rfl⟩ := h3
  unfold get_parent parent_loop
  rw [parentLoopAux_pow t (2 ^ t) index h1 h2 (Nat.le_refl _)]

theorem get_parent_clears_highest_bit_witness :
    (1 ≤ 5 ∧ 5 < 8 ∧ ∃ t, 8 = 2 ^ t) ∧ get_parent 5 8 = 5 - 2 ^ Nat.log2 5 :=
  ⟨⟨by decide, by decide, ⟨3, by norm_num⟩⟩,
   get_parent_clears_highest_bit 5 8 (by decide) (by decide) ⟨3, by norm_num⟩⟩

/-- Claim C5: for a key `k` with top bit clear, a power-of-two bucket
count, and the bucket index `i = k % size`, the transformed regular key
is numerically at least the transformed sentinel key, so within a bucket
the sentinel precedes every regular entry that maps to it. -/
theorem sentinel_key_le_regular_key (k size i : Nat)
    (hk : k < 2 ^ 63) (hpow : ∃ t, size = 2 ^ t) (hi : i = k % size) :
    sentinelKey i ≤ regularKey k := by
  obtain ⟨t, rfl⟩ := hpow
  subst hi
  unfold sentinelKey regularKey rev64
  have step1 : reverseBits 64 (k % 2 ^ t) ≤ reverseBits 64 k := by
    apply reverseBits_le_of_testBit_imp
    intro j hj
    rw [Nat.testBit_mod_two_pow] at hj
    exact (Bool.and_eq_true_iff.mp hj).2
  have step2 : reverseBits 64 k ≤ reverseBits 64 (k ||| 2 ^ 63) := by
    apply reverseBits_le_of_testBit_imp
    intro j hj
    rw [Nat.testBit_lor, hj, Bool.true_or]
  exact step1.trans step2

theorem sentinel_key_le_regular_key_witness :
    (5 < 2 ^ 63 ∧ (∃ t, (4 : Nat) = 2 ^ t) ∧ 1 = 5 % 4) ∧
    sentinelKey 1 ≤ regularKey 5 :=
  ⟨⟨by norm_num, ⟨2, by norm_num⟩, by decide⟩,
   sentinel_key_le_regular_key 5 4 1 (by norm_num) ⟨2, by norm_num⟩ (by decide)⟩

namespace GrowableArray

/-- `let bit_num = 64 - index.leading_zeros();` in `GrowableArray::get`. -/
def bit_num (index : Nat) : Nat := 64 - leadingZeros64 index

/-- The required height computed in `GrowableArray::get`:
`bit_num / 10` rounded up (`SEGMENT_LOGSIZE = 10`). -/
def bit_height (index : Nat) : Nat :=
  if bit_num index % 10 = 0 then bit_num index / 10 else bit_num index / 10 + 1

/-- Fuel-based model of the growth loop of `GrowableArray::get`: while the
root's height tag is below `target`, wrap the root in a fresh segment whose
tag is one higher (each sequential compare-and-set succeeds).  Fuel `target`
always suffices since the height strictly increases towards `target`. -/
def growLoopAux : Nat → Nat → Nat → Nat
| 0, h, _ => h
| fuel + 1, h, target => if h < target then growLoopAux fuel (h + 1) target else h

/-- Root height tag after the growth phase of `GrowableArray::get`, starting
from a root of height `h0` (`h0 = 0` encodes a null root, which the initial
compare-and-set replaces by a height-1 segment). -/
def rootHeightAfterGet (h0 index : Nat) : Nat :=
  growLoopAux (bit_height index) (if h0 = 0 then 1 else h0) (bit_height index)

theorem growLoopAux_eq_max (f : Nat) :
    ∀ h t : Nat, t ≤ h + f → growLoopAux f h t = max h t := by
  induction f with
  | zero =>
    intro h t ht
    simp only [growLoopAux]
    omega
  | succ f ih =>
    intro h t ht
    simp only [growLoopAux]
    split
    · rename_i hlt
      rw [ih (h + 1) t (by omega)]
      omega
    · omega

theorem bit_num_eq_bitLen {index : Nat} (h : index < 2 ^ 64) :
    bit_num index = bitLenAux 64 index := by
  unfold bit_num leadingZeros64 bitLen
  have := bitLenAux_le 64 index
  omega

end GrowableArray

/-- Claim C7: `GrowableArray::get` computes `bit_height index` as the least
number of 10-bit (`SEGMENT_LOGSIZE`-bit) chunks `c` such that `index + 1`
values (the indices `0..index`) fit in `c` chunks, and the growth phase
raises the root's height tag exactly to that value (never past
`max (max h0 1) (bit_height index)`) before descending. -/
theorem get_required_height_and_growth (index : Nat) (h64 : index < 2 ^ 64) :
    index + 1 ≤ 2 ^ (10 * GrowableArray.bit_height index)
    ∧ (∀ c, index + 1 ≤ 2 ^ (10 * c) → GrowableArray.bit_height index ≤ c)
    ∧ (∀ h0, GrowableArray.rootHeightAfterGet h0 index
        = max (max h0 1) (GrowableArray.bit_height index)) := by
  have hbn := GrowableArray.bit_num_eq_bitLen h64
  have hdm := Nat.div_add_mod (GrowableArray.bit_num index) 10
  have hmlt : GrowableArray.bit_num index % 10 < 10 := Nat.mod_lt _ (by norm_num)
  refine ⟨?_, ?_, ?_⟩
  · have h1 : index < 2 ^ GrowableArray.bit_num index := by
      rw [hbn]; exact lt_two_pow_bitLenAux 64 index h64
    have h2 : GrowableArray.bit_num index ≤ 10 * GrowableArray.bit_height index := by
      unfold GrowableArray.bit_height
      split <;> omega
    have := h1.trans_le (Nat.pow_le_pow_right (by norm_num) h2)
    omega
  · intro c hc
    have h1 : index < 2 ^ (10 * c) := by omega
    have h2 : bitLenAux 64 index ≤ 10 * c := bitLenAux_le_of_lt 64 index (10 * c) h1
    unfold GrowableArray.bit_height
    split <;> omega
  · intro h0
    unfold GrowableArray.rootHeightAfterGet
    rw [GrowableArray.growLoopAux_eq_max _ _ _ (by omega)]
    by_cases h : h0 = 0
    · subst h; simp
    · rw [if_neg h]
      omega

theorem get_required_height_and_growth_witness :
    (1023 < 2 ^ 64) ∧
    (1023 + 1 ≤ 2 ^ (10 * GrowableArray.bit_height 1023)
     ∧ (∀ c, 1023 + 1 ≤ 2 ^ (10 * c) → GrowableArray.bit_height 1023 ≤ c)
     ∧ (∀ h0, GrowableArray.rootHeightAfterGet h0 1023
         = max (max h0 1) (GrowableArray.bit_height 1023))) :=
  ⟨by norm_num, get_required_height_and_growth 1023 (by norm_num)⟩

/-- Sequential state of a `SplitOrderedList<V>`.
`list` models the sorted lock-free list as an association list from
transformed keys to stored values (`none` marks a sentinel node, as in the
source's `Option<V>` node values); `buckets` models the growable array as
the set of bucket indices whose head pointer has been published (non-null);
`size` and `count` model the two atomic counters. -/
structure SplitOrderedList (V : Type) where
  list : List (Nat × Option V)
  buckets : List Nat
  size : Nat
  count : Nat

/-- First value stored under transformed key `k` (the value read through a
cursor positioned at `k`). -/
def getValue {V : Type} (k : Nat) : List (Nat × Option V) → Option (Option V)
| [] => none
| (q, v) :: t => if q = k then some v else getValue k t

/-- Whether `find_harris_michael` starting before this sublist finds `k`. -/
def containsKey {V : Type} (k : Nat) (l : List (Nat × Option V)) : Bool :=
  (getValue k l).isSome

/-- Insertion of a node at the sorted position located by
`find_harris_michael`: immediately before the first node whose transformed
key is `≥ k` (in reachable states `k` is absent, so strict `<` suffices). -/
def insertSorted {V : Type} (k : Nat) (v : Option V) :
    List (Nat × Option V) → List (Nat × Option V)
| [] => [(k, v)]
| (q, w) :: t => if k < q then (k, v) :: (q, w) :: t else (q, w) :: insertSorted k v t

/-- Physical removal performed by `Cursor::delete` (first node with key `k`). -/
def removeKey {V : Type} (k : Nat) : List (Nat × Option V) → List (Nat × Option V)
| [] => []
| (q, w) :: t => if q = k then t else (q, w) :: removeKey k t

/-- Number of nodes carrying transformed key `k`. -/
def occs {V : Type} (k : Nat) (l : List (Nat × Option V)) : Nat :=
  l.countP (fun e => decide (e.1 = k))

namespace SplitOrderedList

/-- `SplitOrderedList::new` / `Default::default`: empty list, no published
buckets, `size = 2`, `count = 0`. -/
def new (V : Type) : SplitOrderedList V := ⟨[], [], 2, 0⟩

/-- Fuel-based model of `SplitOrderedList::initialize_bucket`.
If the bucket's head pointer is already published, return unchanged.
Otherwise recursively resolve the parent bucket (the list head when
`index = 0`), search for the sentinel key, and if absent insert the
sentinel node and publish the bucket pointer (a search hit does not
publish, exactly as in the source, which stores into `bucket_ptr` only on
a winning insert).  Fuel `index + 1` suffices at every call site because
`get_parent` strictly decreases for the sizes (`≥ 2`) the table uses. -/
def initialize_bucket {V : Type} :
    Nat → SplitOrderedList V → Nat → Nat → SplitOrderedList V
| 0, s, _, _ => s
| fuel + 1, s, index, size =>
  if index ∈ s.buckets then s
  else
    let s1 := if index = 0 then s
              else initialize_bucket fuel s (get_parent index size) size
    if containsKey (sentinelKey index) s1.list then s1
    else { s1 with list := insertSorted (sentinelKey index) none s1.list,
                   buckets := index :: s1.buckets }

/-- `SplitOrderedList::find`: read `size`, compute the bucket index and the
transformed key, resolve the bucket (`lookup_bucket`, which re-reads the
same `size`), then search the list.  Returns `(size, found, state)`. -/
def find {V : Type} (s : SplitOrderedList V) (key : Nat) :
    Nat × Bool × SplitOrderedList V :=
  let bucket_size := s.size
  let bucket_index := key % bucket_size
  let new_index := regularKey key
  let s1 := initialize_bucket (bucket_index + 1) s bucket_index bucket_size
  (bucket_size, containsKey new_index s1.list, s1)

/-- `SplitOrderedList::lookup`.  `none` models abnormal termination (the
`assert_valid_key` failure, or the `unreachable!` arm); otherwise the
result is the returned `Option<&V>` together with the post-state. -/
def lookup {V : Type} (s : SplitOrderedList V) (key : Nat) :
    Option (Option V × SplitOrderedList V) :=
  if assert_valid_key key then
    let r := find s key
    if r.2.1 then
      match getValue (regularKey key) r.2.2.list with
      | some v => some (v, r.2.2)
      | none => none
    else some (none, r.2.2)
  else none

/-- `SplitOrderedList::insert`.  `none` models the `assert_valid_key`
failure; `.error value` is the duplicate-key conflict (the supplied value
handed back); on success the node is spliced in, `count` is incremented,
and if the new count exceeds `size * 2` (`LOAD_FACTOR = 2`) a
compare-and-swap doubles `size`. -/
def insert {V : Type} (s : SplitOrderedList V) (key : Nat) (value : V) :
    Option (Except V Unit × SplitOrderedList V) :=
  if assert_valid_key key then
    let r := find s key
    if r.2.1 then some (.error value, r.2.2)
    else
      let s2 : SplitOrderedList V :=
        { r.2.2 with list := insertSorted (regularKey key) (some value) r.2.2.list,
                     count := r.2.2.count + 1 }
      let s3 : SplitOrderedList V :=
        if r.1 * 2 < s2.count then
          (if s2.size = r.1 then { s2 with size := r.1 * 2 } else s2)
        else s2
      some (.ok (), s3)
  else none

/-- `SplitOrderedList::delete`.  `none` models abnormal termination
(`assert_valid_key` failure or the `unreachable!` arm for a valueless
node); `.error ()` is the not-found result; on success the node is
removed, `count` decremented, and the removed value returned. -/
def delete {V : Type} (s : SplitOrderedList V) (key : Nat) :
    Option (Except Unit V × SplitOrderedList V) :=
  if assert_valid_key key then
    let r := find s key
    if r.2.1 then
      match getValue (regularKey key) r.2.2.list with
      | some (some v) =>
          some (.ok v, { r.2.2 with list := removeKey (regularKey key) r.2.2.list,
                                    count := r.2.2.count - 1 })
      | some none => none
      | none => none
    else some (.error (), r.2.2)
  else none

end SplitOrderedList

theorem getValue_insertSorted_self {V : Type} (k : Nat) (v : Option V) :
    ∀ l : List (Nat × Option V), containsKey k l = false →
    getValue k (insertSorted k v l) = some v := by
  intro l
  induction l with
  | nil => intro _; simp [insertSorted, getValue]
  | cons e t ih =>
    obtain ⟨q, w⟩ := e
    intro h
    simp only [containsKey, getValue] at h
    by_cases hq : q = k
    · simp [hq] at h
    · simp only [if_neg hq] at h
      simp only [insertSorted]
      split
      · simp [getValue, hq]
      · simp only [getValue, if_neg hq]
        exact ih (by simpa [containsKey] using h)

theorem getValue_insertSorted_ne {V : Type} (k q0 : Nat) (v : Option V)
    (hne : q0 ≠ k) :
    ∀ l : List (Nat × Option V), getValue k (insertSorted q0 v l) = getValue k l := by
  intro l
  induction l with
  | nil => simp [insertSorted, getValue, hne]
  | cons e t ih =>
    obtain ⟨q, w⟩ := e
    simp only [insertSorted]
    split
    · simp [getValue, hne]
    · simp only [getValue]
      split
      · rfl
      · exact ih

theorem occs_insertSorted {V : Type} (k q0 : Nat) (v : Option V) :
    ∀ l : List (Nat × Option V),
    occs k (insertSorted q0 v l) = occs k l + (if q0 = k then 1 else 0) := by
  intro l
  induction l with
  | nil => by_cases hq : q0 = k <;> simp [insertSorted, occs, List.countP_cons, hq]
  | cons e t ih =>
    obtain ⟨q, w⟩ := e
    simp only [insertSorted]
    split
    · by_cases hq : q0 = k <;>
        simp [occs, List.countP_cons, hq]
    · by_cases hq : q0 = k <;>
        simp only [occs, List.countP_cons] at ih ⊢ <;>
        simp [hq] at ih ⊢ <;> omega

theorem containsKey_false_iff_occs_zero {V : Type} (k : Nat) :
    ∀ l : List (Nat × Option V), containsKey k l = false ↔ occs k l = 0 := by
  intro l
  induction l with
  | nil => simp [containsKey, getValue, occs]
  | cons e t ih =>
    obtain ⟨q, w⟩ := e
    simp only [containsKey, getValue, occs, List.countP_cons] at *
    by_cases hq : q = k
    · simp [hq]
    · simp only [if_neg hq, decide_eq_true_eq, hq]
      simpa [containsKey, occs] using ih

theorem getValue_none_of_occs_zero {V : Type} (k : Nat)
    (l : List (Nat × Option V)) (h : occs k l = 0) : getValue k l = none := by
  have := (containsKey_false_iff_occs_zero k l).mpr h
  simp only [containsKey] at this
  exact Option.not_isSome_iff_eq_none.mp (by simp [this])

theorem getValue_removeKey_self {V : Type} (k : Nat) :
    ∀ l : List (Nat × Option V), occs k l ≤ 1 →
    getValue k (removeKey k l) = none := by
  intro l
  induction l with
  | nil => intro _; simp [removeKey, getValue]
  | cons e t ih =>
    obtain ⟨q, w⟩ := e
    intro h
    have hc : occs k ((q, w) :: t) = occs k t + (if q = k then 1 else 0) := by
      by_cases hq : q = k <;> simp [occs, List.countP_cons, hq]
    simp only [removeKey]
    by_cases hq : q = k
    · rw [if_pos hq]
      exact getValue_none_of_occs_zero k t (by rw [hc, if_pos hq] at h; omega)
    · rw [if_neg hq]
      simp only [getValue, if_neg hq]
      exact ih (by rw [hc, if_neg hq] at h; omega)

theorem initialize_bucket_size_count {V : Type} (fuel : Nat) :
    ∀ (s : SplitOrderedList V) (index size : Nat),
    (SplitOrderedList.initialize_bucket fuel s index size).size = s.size ∧
    (SplitOrderedList.initialize_bucket fuel s index size).count = s.count := by
  induction fuel with
  | zero => intro s index size; exact ⟨rfl, rfl⟩
  | succ fuel ih =>
    intro s index size
    simp only [SplitOrderedList.initialize_bucket]
    split
    · exact ⟨rfl, rfl⟩
    · split
      · split
        · exact ⟨rfl, rfl⟩
        · exact ⟨rfl, rfl⟩
      · have hih := ih s (get_parent index size) size
        split
        · exact hih
        · exact ⟨hih.1, hih.2⟩

theorem initialize_bucket_preserves_odd {V : Type} (fuel : Nat) :
    ∀ (s : SplitOrderedList V) (index size k : Nat), index < 2 ^ 63 → k % 2 = 1 →
    getValue k (SplitOrderedList.initialize_bucket fuel s index size).list
      = getValue k s.list ∧
    occs k (SplitOrderedList.initialize_bucket fuel s index size).list
      = occs k s.list := by
  induction fuel with
  | zero => intro s index size k _ _; exact ⟨rfl, rfl⟩
  | succ fuel ih =>
    intro s index size k hidx hodd
    simp only [SplitOrderedList.initialize_bucket]
    split
    · exact ⟨rfl, rfl⟩
    · have hpar : get_parent index size < 2 ^ 63 :=
        lt_of_le_of_lt (Nat.sub_le _ _) hidx
      have hne : sentinelKey index ≠ k := by
        have he := sentinelKey_even hidx
        omega
      split
      · split
        · exact ⟨rfl, rfl⟩
        · constructor
          · show getValue k (insertSorted (sentinelKey index) none s.list)
              = getValue k s.list
            rw [getValue_insertSorted_ne _ _ _ hne]
          · show occs k (insertSorted (sentinelKey index) none s.list) = occs k s.list
            rw [occs_insertSorted, if_neg hne]
            omega
      · have hih := ih s (get_parent index size) size k hpar hodd
        split
        · exact hih
        · constructor
          · show getValue k (insertSorted (sentinelKey index) none
                (SplitOrderedList.initialize_bucket fuel s (get_parent index size) size).list)
              = getValue k s.list
            rw [getValue_insertSorted_ne _ _ _ hne, hih.1]
          · show occs k (insertSorted (sentinelKey index) none
                (SplitOrderedList.initialize_bucket fuel s (get_parent index size) size).list)
              = occs k s.list
            rw [occs_insertSorted, if_neg hne, hih.2]
            omega

theorem find_spec {V : Type} (s : SplitOrderedList V) (key : Nat) (hk : key < 2 ^ 63) :
    (SplitOrderedList.find s key).1 = s.size ∧
    (SplitOrderedList.find s key).2.1 = containsKey (regularKey key) s.list ∧
    (SplitOrderedList.find s key).2.2.size = s.size ∧
    (SplitOrderedList.find s key).2.2.count = s.count ∧
    (∀ q, q % 2 = 1 →
      getValue q (SplitOrderedList.find s key).2.2.list = getValue q s.list ∧
      occs q (SplitOrderedList.find s key).2.2.list = occs q s.list) := by
  have hbi : key % s.size < 2 ^ 63 := lt_of_le_of_lt (Nat.mod_le key s.size) hk
  have hsc := initialize_bucket_size_count (V := V) (key % s.size + 1) s (key % s.size) s.size
  have hpres : ∀ q, q % 2 = 1 →
      getValue q (SplitOrderedList.initialize_bucket (key % s.size + 1) s
        (key % s.size) s.size).list = getValue q s.list ∧
      occs q (SplitOrderedList.initialize_bucket (key % s.size + 1) s
        (key % s.size) s.size).list = occs q s.list :=
    fun q hq => initialize_bucket_preserves_odd (key % s.size + 1) s (key % s.size) s.size q hbi hq
  refine ⟨rfl, ?_, hsc.1, hsc.2, hpres⟩
  show containsKey (regularKey key) (SplitOrderedList.initialize_bucket (key % s.size + 1) s
      (key % s.size) s.size).list = containsKey (regularKey key) s.list
  unfold containsKey
  rw [(hpres (regularKey key) (regularKey_odd key)).1]

theorem lookup_spec {V : Type} (s : SplitOrderedList V) (key : Nat) (hk : key < 2 ^ 63) :
    ∃ s1, SplitOrderedList.lookup s key
        = some ((getValue (regularKey key) s.list).join, s1) ∧
      s1.size = s.size ∧ s1.count = s.count ∧
      (∀ q, q % 2 = 1 → getValue q s1.list = getValue q s.list ∧
        occs q s1.list = occs q s.list) := by
  have hvk : assert_valid_key key = true :=
    (assert_valid_key_iff (lt_trans hk (by norm_num))).mpr hk
  obtain ⟨h1, h2, h3, h4, h5⟩ := find_spec s key hk
  refine ⟨(SplitOrderedList.find s key).2.2, ?_, h3, h4, h5⟩
  simp only [SplitOrderedList.lookup]
  rw [if_pos hvk, h2, (h5 _ (regularKey_odd key)).1]
  cases hgv : getValue (regularKey key) s.list with
  | none => simp [containsKey, hgv]
  | some v => simp [containsKey, hgv]

theorem insert_success_spec {V : Type} (s : SplitOrderedList V) (key : Nat) (v : V)
    (hk : key < 2 ^ 63) (habs : containsKey (regularKey key) s.list = false) :
    ∃ s1, SplitOrderedList.insert s key v = some (.ok (), s1) ∧
      s1.count = s.count + 1 ∧
      s1.size = (if s.size * 2 < s.count + 1 then s.size * 2 else s.size) ∧
      getValue (regularKey key) s1.list = some (some v) ∧
      occs (regularKey key) s1.list = occs (regularKey key) s.list + 1 ∧
      (∀ q, q % 2 = 1 → q ≠ regularKey key →
        getValue q s1.list = getValue q s.list ∧ occs q s1.list = occs q s.list) := by
  have hvk : assert_valid_key key = true :=
    (assert_valid_key_iff (lt_trans hk (by norm_num))).mpr hk
  obtain ⟨h1, h2, h3, h4, h5⟩ := find_spec s key hk
  have hfound : (SplitOrderedList.find s key).2.1 = false := by rw [h2, habs]
  have hcF : containsKey (regularKey key)
      (SplitOrderedList.find s key).2.2.list = false := by
    unfold containsKey
    rw [(h5 _ (regularKey_odd key)).1]
    exact habs
  simp only [SplitOrderedList.insert]
  rw [if_pos hvk, hfound]
  simp only [Bool.false_eq_true, if_false]
  refine ⟨_, rfl, ?_, ?_, ?_, ?_, ?_⟩
  · split
    · split
      · exact congrArg (· + 1) h4
      · exact congrArg (· + 1) h4
    · exact congrArg (· + 1) h4
  · have hcnd : ((SplitOrderedList.find s key).1 * 2
        < (SplitOrderedList.find s key).2.2.count + 1)
        = (s.size * 2 < s.count + 1) := by rw [h1, h4]
    split
    · rename_i hres
      rw [hcnd] at hres
      rw [if_pos hres]
      split
      · exact congrArg (· * 2) h1
      · rename_i hcas
        exact absurd (h3.trans h1.symm) hcas
    · rename_i hres
      rw [hcnd] at hres
      rw [if_neg hres]
      exact h3
  · have hg : getValue (regularKey key) (insertSorted (regularKey key) (some v)
        (SplitOrderedList.find s key).2.2.list) = some (some v) :=
      getValue_insertSorted_self _ _ _ hcF
    split
    · split
      · exact hg
      · exact hg
    · exact hg
  · have hg : occs (regularKey key) (insertSorted (regularKey key) (some v)
        (SplitOrderedList.find s key).2.2.list)
        = occs (regularKey key) s.list + 1 := by
      rw [occs_insertSorted, if_pos rfl, (h5 _ (regularKey_odd key)).2]
    split
    · split
      · exact hg
      · exact hg
    · exact hg
  · intro q hq hne
    have hg1 : getValue q (insertSorted (regularKey key) (some v)
        (SplitOrderedList.find s key).2.2.list) = getValue q s.list := by
      rw [getValue_insertSorted_ne _ _ _ (fun h => hne h.symm), (h5 q hq).1]
    have hg2 : occs q (insertSorted (regularKey key) (some v)
        (SplitOrderedList.find s key).2.2.list) = occs q s.list := by
      rw [occs_insertSorted, if_neg (fun h => hne h.symm), (h5 q hq).2]
      omega
    refine ⟨?_, ?_⟩
    · split
      · split
        · exact hg1
        · exact hg1
      · exact hg1
    · split
      · split
        · exact hg2
        · exact hg2
      · exact hg2

theorem insert_duplicate_spec {V : Type} (s : SplitOrderedList V) (key : Nat) (v : V)
    (hk : key < 2 ^ 63)
    (hpres : containsKey (regularKey key) s.list = true) :
    ∃ s1, SplitOrderedList.insert s key v = some (.error v, s1) ∧
      s1.size = s.size ∧ s1.count = s.count ∧
      (∀ q, q % 2 = 1 → getValue q s1.list = getValue q s.list ∧
        occs q s1.list = occs q s.list) := by
  have hvk : assert_valid_key key = true :=
    (assert_valid_key_iff (lt_trans hk (by norm_num))).mpr hk
  obtain ⟨h1, h2, h3, h4, h5⟩ := find_spec s key hk
  have hfound : (SplitOrderedList.find s key).2.1 = true := by rw [h2, hpres]
  refine ⟨(SplitOrderedList.find s key).2.2, ?_, h3, h4, h5⟩
  simp only [SplitOrderedList.insert]
  rw [if_pos hvk, hfound]
  simp

theorem delete_found_spec {V : Type} (s : SplitOrderedList V) (key : Nat) (v : V)
    (hk : key < 2 ^ 63)
    (hval : getValue (regularKey key) s.list = some (some v))
    (hocc : occs (regularKey key) s.list ≤ 1) :
    ∃ s1, SplitOrderedList.delete s key = some (.ok v, s1) ∧
      s1.size = s.size ∧ s1.count = s.count - 1 ∧
      getValue (regularKey key) s1.list = none := by
  have hvk : assert_valid_key key = true :=
    (assert_valid_key_iff (lt_trans hk (by norm_num))).mpr hk
  obtain ⟨h1, h2, h3, h4, h5⟩ := find_spec s key hk
  have hgF : getValue (regularKey key) (SplitOrderedList.find s key).2.2.list
      = some (some v) := by rw [(h5 _ (regularKey_odd key)).1]; exact hval
  have hoF : occs (regularKey key) (SplitOrderedList.find s key).2.2.list ≤ 1 := by
    rw [(h5 _ (regularKey_odd key)).2]; exact hocc
  have hfound : (SplitOrderedList.find s key).2.1 = true := by
    rw [h2]
    unfold containsKey
    rw [hval]
    rfl
  simp only [SplitOrderedList.delete]
  rw [if_pos hvk, hfound]
  simp only [if_true]
  rw [hgF]
  refine ⟨_, rfl, h3, congrArg (· - 1) h4, ?_⟩
  exact getValue_removeKey_self _ _ hoF

theorem delete_absent_spec {V : Type} (s : SplitOrderedList V) (key : Nat)
    (hk : key < 2 ^ 63)
    (habs : containsKey (regularKey key) s.list = false) :
    ∃ s1, SplitOrderedList.delete s key = some (.error (), s1) ∧
      s1.size = s.size ∧ s1.count = s.count ∧
      (∀ q, q % 2 = 1 → getValue q s1.list = getValue q s.list ∧
        occs q s1.list = occs q s.list) := by
  have hvk : assert_valid_key key = true :=
    (assert_valid_key_iff (lt_trans hk (by norm_num))).mpr hk
  obtain ⟨h1, h2, h3, h4, h5⟩ := find_spec s key hk
  have hfound : (SplitOrderedList.find s key).2.1 = false := by rw [h2, habs]
  refine ⟨(SplitOrderedList.find s key).2.2, ?_, h3, h4, h5⟩
  simp only [SplitOrderedList.delete]
  rw [if_pos hvk, hfound]
  simp

/-- Claim C1: for every key `k` with its top bit clear and every value `v`,
`insert(k, v)` followed by `lookup(k)` returns `Some(v)`.  The state is any
map state in which `k` is not yet present (so the insert succeeds) and
whose bucket count is positive, as in every reachable state (`size` starts
at 2 and only doubles; a zero `size` would make the source's `key % size`
panic while `Nat` mod is total). -/
theorem insert_then_lookup_roundtrip {V : Type} (s : SplitOrderedList V)
    (k : Nat) (v : V) (hk : k < 2 ^ 63) (hs : 0 < s.size)
    (habs : containsKey (regularKey k) s.list = false) :
    ∃ s1, SplitOrderedList.insert s k v = some (.ok (), s1) ∧
    ∃ s2, SplitOrderedList.lookup s1 k = some (some v, s2) := by
  obtain ⟨s1, hins, _, _, hget, _, _⟩ := insert_success_spec s k v hk habs
  refine ⟨s1, hins, ?_⟩
  obtain ⟨s2, hlook, _, _, _⟩ := lookup_spec s1 k hk
  refine ⟨s2, ?_⟩
  rw [hlook, hget]
  rfl

theorem insert_then_lookup_roundtrip_witness :
    ((5 : Nat) < 2 ^ 63 ∧ 0 < (SplitOrderedList.new Nat).size ∧
      containsKey (regularKey 5) (SplitOrderedList.new Nat).list = false) ∧
    (∃ s1, SplitOrderedList.insert (SplitOrderedList.new Nat) 5 42
        = some (.ok (), s1) ∧
     ∃ s2, SplitOrderedList.lookup s1 5 = some (some 42, s2)) :=
  ⟨⟨by decide, by decide, by decide⟩,
   insert_then_lookup_roundtrip (SplitOrderedList.new Nat) 5 42
     (by decide) (by decide) (by decide)⟩

/-- Claim C2: after a successful `insert(k, v)`, `delete(k)` returns
`Ok(v)`, a subsequent `lookup(k)` returns `None`, and a further
`delete(k)` returns `Err(())`.  Hypotheses as in C1: `k` absent
initially and a positive bucket count. -/
theorem insert_delete_lookup_delete {V : Type} (s : SplitOrderedList V)
    (k : Nat) (v : V) (hk : k < 2 ^ 63) (hs : 0 < s.size)
    (habs : containsKey (regularKey k) s.list = false) :
    ∃ s1, SplitOrderedList.insert s k v = some (.ok (), s1) ∧
    ∃ s2, SplitOrderedList.delete s1 k = some (.ok v, s2) ∧
    ∃ s3, SplitOrderedList.lookup s2 k = some (none, s3) ∧
    ∃ s4, SplitOrderedList.delete s3 k = some (.error (), s4) := by
  have hocc0 : occs (regularKey k) s.list = 0 :=
    (containsKey_false_iff_occs_zero _ _).mp habs
  obtain ⟨s1, hins, _, _, hget1, hocc1, _⟩ := insert_success_spec s k v hk habs
  rw [hocc0] at hocc1
  obtain ⟨s2, hdel, _, _, hget2⟩ := delete_found_spec s1 k v hk hget1 (by omega)
  have habs2 : containsKey (regularKey k) s2.list = false := by
    unfold containsKey
    rw [hget2]
    rfl
  obtain ⟨s3, hlook, _, _, h5l⟩ := lookup_spec s2 k hk
  have habs3 : containsKey (regularKey k) s3.list = false := by
    unfold containsKey
    rw [(h5l _ (regularKey_odd k)).1, hget2]
    rfl
  obtain ⟨s4, hdel2, _, _, _⟩ := delete_absent_spec s3 k hk habs3
  refine ⟨s1, hins, s2, hdel, s3, ?_, s4, hdel2⟩
  rw [hlook, hget2]
  rfl

theorem insert_delete_lookup_delete_witness :
    ((5 : Nat) < 2 ^ 63 ∧ 0 < (SplitOrderedList.new Nat).size ∧
      containsKey (regularKey 5) (SplitOrderedList.new Nat).list = false) ∧
    (∃ s1, SplitOrderedList.insert (SplitOrderedList.new Nat) 5 42
        = some (.ok (), s1) ∧
     ∃ s2, SplitOrderedList.delete s1 5 = some (.ok 42, s2) ∧
     ∃ s3, SplitOrderedList.lookup s2 5 = some (none, s3) ∧
     ∃ s4, SplitOrderedList.delete s3 5 = some (.error (), s4)) :=
  ⟨⟨by decide, by decide, by decide⟩,
   insert_delete_lookup_delete (SplitOrderedList.new Nat) 5 42
     (by decide) (by decide) (by decide)⟩

/-- Claim C3 counterexample: inserting a duplicate key does return the
supplied value as `Err` and leaves the live-entry count unchanged, but it
is not true that the set of entries is unchanged: when the key's current
bucket sentinel is not yet materialized (here: key 2 was inserted while
`size` was 2, then `size` grew to 4, so bucket 2 has no sentinel), the
duplicate insert lazily inserts sentinel entries for buckets 0 and 2,
growing the entry list from 1 to 3 nodes. -/
theorem insert_duplicate_mutates_sentinels :
    ((SplitOrderedList.insert
        (⟨[(regularKey 2, some 7)], [], 4, 1⟩ : SplitOrderedList Nat) 2 9).map
      (fun r => (r.2.list.length, r.2.count,
        match r.1 with | Except.error x => some x | Except.ok _ => none)))
      = some (3, 1, some 9) := by decide

/-- Claim C3 (amended): for every key `k` already present and every value
`v2`, `insert(k, v2)` returns `Err(v2)` — the supplied value handed back
unchanged — and leaves `count`, `size`, and every regular entry (odd
transformed key) unchanged; it may only lazily materialize bucket
sentinel entries. -/
theorem insert_duplicate_err_no_regular_mutation {V : Type}
    (s : SplitOrderedList V) (k : Nat) (v2 : V)
    (hk : k < 2 ^ 63) (hs : 0 < s.size)
    (hpres : containsKey (regularKey k) s.list = true) :
    ∃ s1, SplitOrderedList.insert s k v2 = some (.error v2, s1) ∧
      s1.size = s.size ∧ s1.count = s.count ∧
      (∀ q, q % 2 = 1 → getValue q s1.list = getValue q s.list) := by
  obtain ⟨s1, hins, hsz, hct, hpr⟩ := insert_duplicate_spec s k v2 hk hpres
  exact ⟨s1, hins, hsz, hct, fun q hq => (hpr q hq).1⟩

theorem insert_duplicate_err_no_regular_mutation_witness :
    ((2 : Nat) < 2 ^ 63 ∧
      0 < (⟨[(regularKey 2, some 7)], [], 4, 1⟩ : SplitOrderedList Nat).size ∧
      containsKey (regularKey 2)
        (⟨[(regularKey 2, some 7)], [], 4, 1⟩ : SplitOrderedList Nat).list = true) ∧
    (∃ s1, SplitOrderedList.insert
        (⟨[(regularKey 2, some 7)], [], 4, 1⟩ : SplitOrderedList Nat) 2 9
        = some (.error 9, s1) ∧
      s1.size = 4 ∧ s1.count = 1 ∧
      (∀ q, q % 2 = 1 → getValue q s1.list
        = getValue q (⟨[(regularKey 2, some 7)], [], 4, 1⟩ : SplitOrderedList Nat).list)) :=
  ⟨⟨by decide, by decide, by decide⟩,
   insert_duplicate_err_no_regular_mutation
     (⟨[(regularKey 2, some 7)], [], 4, 1⟩ : SplitOrderedList Nat) 2 9
     (by decide) (by decide) (by decide)⟩

/-- Claim C4: for every key with the most significant bit set, each of
`lookup`, `insert`, `delete` hits the `assert_valid_key` assertion and
terminates abnormally (modelled by `none`) without performing any map
operation; for every key with the top bit clear, the assertion passes. -/
theorem invalid_key_asserts (V : Type) :
    (∀ (s : SplitOrderedList V) (key : Nat) (value : V),
      key < 2 ^ 64 → 2 ^ 63 ≤ key →
      SplitOrderedList.lookup s key = none ∧
      SplitOrderedList.insert s key value = none ∧
      SplitOrderedList.delete s key = none)
    ∧ (∀ key, key < 2 ^ 63 → assert_valid_key key = true) := by
  constructor
  · intro s key value h64 htop
    have hvk : assert_valid_key key = false := by
      rcases hb : assert_valid_key key with _ | _
      · rfl
      · have := (assert_valid_key_iff h64).mp hb
        omega
    refine ⟨?_, ?_, ?_⟩
    · simp only [SplitOrderedList.lookup]
      rw [if_neg (by simp [hvk])]
    · simp only [SplitOrderedList.insert]
      rw [if_neg (by simp [hvk])]
    · simp only [SplitOrderedList.delete]
      rw [if_neg (by simp [hvk])]
  · intro key hkey
    exact (assert_valid_key_iff (lt_trans hkey (by norm_num))).mpr hkey

theorem invalid_key_asserts_witness :
    ((2 : Nat) ^ 63 < 2 ^ 64 ∧ 2 ^ 63 ≤ (2 : Nat) ^ 63 ∧ (5 : Nat) < 2 ^ 63) ∧
    (SplitOrderedList.lookup (SplitOrderedList.new Nat) (2 ^ 63) = none ∧
     SplitOrderedList.insert (SplitOrderedList.new Nat) (2 ^ 63) 0 = none ∧
     SplitOrderedList.delete (SplitOrderedList.new Nat) (2 ^ 63) = none) ∧
    assert_valid_key 5 = true :=
  ⟨⟨by norm_num, le_refl _, by decide⟩,
   (invalid_key_asserts Nat).1 (SplitOrderedList.new Nat) (2 ^ 63) 0
     (by norm_num) (le_refl _),
   (invalid_key_asserts Nat).2 5 (by decide)⟩

/-- Claim C8 counterexample: `lookup` is not mutation-free.  On a fresh
map, `lookup(1)` returns `None` but lazily materializes the sentinels of
buckets 0 and 1 (two new list entries) and publishes both bucket
pointers, so the map state is changed. -/
theorem lookup_mutates_on_fresh_map :
    ((SplitOrderedList.lookup (SplitOrderedList.new Nat) 1).map
      (fun r => (r.1, r.2.list.length, r.2.buckets.length)))
      = some (none, 2, 2) := by decide

/-- Claim C8 (amended): for every key with top bit clear, `lookup` never
changes `size`, `count`, or any regular entry (odd transformed key) —
no regular entry is inserted or removed — but it may lazily insert bucket
sentinel entries and grow the bucket-pointer array. -/
theorem lookup_preserves_regular_entries {V : Type} (s : SplitOrderedList V)
    (k : Nat) (hk : k < 2 ^ 63) :
    ∃ r s1, SplitOrderedList.lookup s k = some (r, s1) ∧
      s1.size = s.size ∧ s1.count = s.count ∧
      (∀ q, q % 2 = 1 → getValue q s1.list = getValue q s.list ∧
        occs q s1.list = occs q s.list) := by
  obtain ⟨s1, hlook, hsz, hct, hpr⟩ := lookup_spec s k hk
  exact ⟨_, s1, hlook, hsz, hct, hpr⟩

theorem lookup_preserves_regular_entries_witness :
    ((1 : Nat) < 2 ^ 63) ∧
    (∃ r s1, SplitOrderedList.lookup (SplitOrderedList.new Nat) 1 = some (r, s1) ∧
      s1.size = (SplitOrderedList.new Nat).size ∧
      s1.count = (SplitOrderedList.new Nat).count ∧
      (∀ q, q % 2 = 1 →
        getValue q s1.list = getValue q (SplitOrderedList.new Nat).list ∧
        occs q s1.list = occs q (SplitOrderedList.new Nat).list)) :=
  ⟨by decide, lookup_preserves_regular_entries (SplitOrderedList.new Nat) 1 (by decide)⟩

namespace SplitOrderedList

/-- State reached after `insert` (the panic case, which kills the process,
is mapped to the unchanged state; it never occurs for valid keys). -/
def insert_state {V : Type} (s : SplitOrderedList V) (key : Nat) (value : V) :
    SplitOrderedList V :=
  match SplitOrderedList.insert s key value with
  | some r => r.2
  | none => s

/-- One public map operation, for reasoning about arbitrary call sequences. -/
inductive MapOp (V : Type) where
| lookupStep (key : Nat)
| insertStep (key : Nat) (value : V)
| deleteStep (key : Nat)

/-- State reached after one public operation. -/
def applyOp {V : Type} (s : SplitOrderedList V) : MapOp V → SplitOrderedList V
| .lookupStep key =>
  match SplitOrderedList.lookup s key with
  | some r => r.2
  | none => s
| .insertStep key value =>
  match SplitOrderedList.insert s key value with
  | some r => r.2
  | none => s
| .deleteStep key =>
  match SplitOrderedList.delete s key with
  | some r => r.2
  | none => s

/-- State after a sequence of public operations. -/
def runOps {V : Type} (s : SplitOrderedList V) (ops : List (MapOp V)) :
    SplitOrderedList V :=
  ops.foldl applyOp s

/-- State after sequentially inserting the given key/value pairs. -/
def runInserts {V : Type} (s : SplitOrderedList V) (kvs : List (Nat × V)) :
    SplitOrderedList V :=
  kvs.foldl (fun acc kv => insert_state acc kv.1 kv.2) s

end SplitOrderedList

theorem some_pair_eq {A B : Type} {a : A} {b : B} {c : A} {d : B}
    (h : some (a, b) = some (c, d)) : a = c ∧ b = d := by
  cases h
  exact ⟨rfl, rfl⟩

theorem lookup_post_size {V : Type} (s : SplitOrderedList V) (key : Nat)
    (r : Option V) (s1 : SplitOrderedList V)
    (h : SplitOrderedList.lookup s key = some (r, s1)) : s1.size = s.size := by
  have hfs : (SplitOrderedList.find s key).2.2.size = s.size :=
    (initialize_bucket_size_count (key % s.size + 1) s (key % s.size) s.size).1
  simp only [SplitOrderedList.lookup] at h
  split at h
  · split at h
    · split at h
      · rw [← (some_pair_eq h).2]
        exact hfs
      · exact absurd h (by simp)
    · rw [← (some_pair_eq h).2]
      exact hfs
  · exact absurd h (by simp)

theorem insert_post_size {V : Type} (s : SplitOrderedList V) (key : Nat) (value : V)
    (r : Except V Unit) (s1 : SplitOrderedList V)
    (h : SplitOrderedList.insert s key value = some (r, s1)) :
    s1.size = s.size ∨ s1.size = s.size * 2 := by
  have hfs : (SplitOrderedList.find s key).2.2.size = s.size :=
    (initialize_bucket_size_count (key % s.size + 1) s (key % s.size) s.size).1
  have hf1 : (SplitOrderedList.find s key).1 = s.size := rfl
  simp only [SplitOrderedList.insert] at h
  split at h
  · split at h
    · left
      rw [← (some_pair_eq h).2]
      exact hfs
    · rw [← (some_pair_eq h).2]
      split
      · split
        · right
          exact congrArg (· * 2) hf1
        · left
          exact hfs
      · left
        exact hfs
  · exact absurd h (by simp)

theorem delete_post_size {V : Type} (s : SplitOrderedList V) (key : Nat)
    (r : Except Unit V) (s1 : SplitOrderedList V)
    (h : SplitOrderedList.delete s key = some (r, s1)) : s1.size = s.size := by
  have hfs : (SplitOrderedList.find s key).2.2.size = s.size :=
    (initialize_bucket_size_count (key % s.size + 1) s (key % s.size) s.size).1
  simp only [SplitOrderedList.delete] at h
  split at h
  · split at h
    · split at h
      · rw [← (some_pair_eq h).2]
        exact hfs
      · exact absurd h (by simp)
      · exact absurd h (by simp)
    · rw [← (some_pair_eq h).2]
      exact hfs
  · exact absurd h (by simp)

theorem applyOp_size_le {V : Type} (s : SplitOrderedList V)
    (op : SplitOrderedList.MapOp V) : s.size ≤ (SplitOrderedList.applyOp s op).size := by
  cases op with
  | lookupStep key =>
    rcases hl : SplitOrderedList.lookup s key with _ | ⟨r, s1⟩
    · simp [SplitOrderedList.applyOp, hl]
    · simp only [SplitOrderedList.applyOp, hl]
      rw [lookup_post_size s key r s1 hl]
  | insertStep key value =>
    rcases hl : SplitOrderedList.insert s key value with _ | ⟨r, s1⟩
    · simp [SplitOrderedList.applyOp, hl]
    · simp only [SplitOrderedList.applyOp, hl]
      rcases insert_post_size s key value r s1 hl with h | h <;> rw [h] <;> omega
  | deleteStep key =>
    rcases hl : SplitOrderedList.delete s key with _ | ⟨r, s1⟩
    · simp [SplitOrderedList.applyOp, hl]
    · simp only [SplitOrderedList.applyOp, hl]
      rw [delete_post_size s key r s1 hl]

theorem runOps_size_mono {V : Type} :
    ∀ (ops : List (SplitOrderedList.MapOp V)) (s : SplitOrderedList V),
    s.size ≤ (SplitOrderedList.runOps s ops).size := by
  intro ops
  induction ops with
  | nil => intro s; exact le_refl _
  | cons op rest ih =>
    intro s
    exact le_trans (applyOp_size_le s op) (ih (SplitOrderedList.applyOp s op))

/-- Invariant maintained while sequentially inserting distinct fresh keys:
`count` equals the number of inserted keys, the load factor bound
`count ≤ 2 * size` holds, `size` is 2 times a power of two, and the
regular entries present are exactly the inserted keys. -/
def SeqInv {V : Type} (s : SplitOrderedList V) (done : List Nat) : Prop :=
  s.count = done.length ∧ s.count ≤ 2 * s.size ∧ (∃ j, s.size = 2 * 2 ^ j) ∧
  ∀ k, k < 2 ^ 63 → (containsKey (regularKey k) s.list = true ↔ k ∈ done)

theorem seqInv_new (V : Type) : SeqInv (SplitOrderedList.new V) [] := by
  refine ⟨rfl, by simp [SplitOrderedList.new], ⟨0, rfl⟩, ?_⟩
  intro k _
  simp [containsKey, getValue, SplitOrderedList.new]

theorem seqInv_insert {V : Type} (s : SplitOrderedList V) (k : Nat) (v : V)
    (done : List Nat) (hinv : SeqInv s done) (hk : k < 2 ^ 63) (hnew : k ∉ done) :
    SeqInv (SplitOrderedList.insert_state s k v) (done ++ [k]) := by
  obtain ⟨hc, hb, ⟨j, hsz⟩, hmem⟩ := hinv
  have habs : containsKey (regularKey k) s.list = false := by
    rcases hcb : containsKey (regularKey k) s.list with _ | _
    · rfl
    · exact absurd ((hmem k hk).mp hcb) hnew
  obtain ⟨s1, hins, hct, hszf, hget, hocc, hpr⟩ := insert_success_spec s k v hk habs
  have hstate : SplitOrderedList.insert_state s k v = s1 := by
    unfold SplitOrderedList.insert_state
    rw [hins]
  rw [hstate]
  have hspos : 1 ≤ s.size := by
    have h2j : (1 : Nat) ≤ 2 ^ j := Nat.one_le_two_pow
    omega
  refine ⟨?_, ?_, ?_, ?_⟩
  · rw [hct, hc]
    simp
  · rw [hct, hszf]
    split <;> omega
  · rw [hszf]
    split
    · exact ⟨j + 1, by rw [hsz]; ring⟩
    · exact ⟨j, hsz⟩
  · intro q hq
    by_cases hqk : q = k
    · subst hqk
      constructor
      · intro _
        simp
      · intro _
        unfold containsKey
        rw [hget]
        rfl
    · have hrne : regularKey q ≠ regularKey k :=
        fun h => hqk (regularKey_inj hq hk h)
      have hpq := (hpr (regularKey q) (regularKey_odd q) hrne).1
      have hm := hmem q hq
      unfold containsKey at hm ⊢
      rw [hpq]
      constructor
      · intro hx
        exact List.mem_append_left _ (hm.mp hx)
      · intro hx
        rcases List.mem_append.mp hx with hx | hx
        · exact hm.mpr hx
        · exact absurd (List.mem_singleton.mp hx) hqk

theorem seqInv_runInserts {V : Type} :
    ∀ (kvs : List (Nat × V)) (s : SplitOrderedList V) (done : List Nat),
    SeqInv s done → (∀ p ∈ kvs, p.1 < 2 ^ 63) → (∀ p ∈ kvs, p.1 ∉ done) →
    (kvs.map Prod.fst).Nodup →
    SeqInv (SplitOrderedList.runInserts s kvs) (done ++ kvs.map Prod.fst) := by
  intro kvs
  induction kvs with
  | nil =>
    intro s done hinv _ _ _
    simpa using hinv
  | cons kv rest ih =>
    intro s done hinv hvalid hnotin hnd
    obtain ⟨k, v⟩ := kv
    have hk : k < 2 ^ 63 := hvalid (k, v) (List.mem_cons_self _ _)
    have hnew : k ∉ done := hnotin (k, v) (List.mem_cons_self _ _)
    have hstep := seqInv_insert s k v done hinv hk hnew
    have hmap : ((k, v) :: rest).map Prod.fst = k :: rest.map Prod.fst := rfl
    rw [hmap] at hnd
    have hknot : k ∉ rest.map Prod.fst := (List.nodup_cons.mp hnd).1
    have hrun : SplitOrderedList.runInserts s ((k, v) :: rest)
        = SplitOrderedList.runInserts (SplitOrderedList.insert_state s k v) rest := rfl
    rw [hrun, hmap]
    have happ : done ++ k :: rest.map Prod.fst
        = (done ++ [k]) ++ rest.map Prod.fst := by simp
    rw [happ]
    apply ih _ _ hstep
    · intro p hp
      exact hvalid p (List.mem_cons_of_mem _ hp)
    · intro p hp
      rw [List.mem_append]
      push_neg
      refine ⟨hnotin p (List.mem_cons_of_mem _ hp), ?_⟩
      simp only [List.mem_singleton]
      intro hpk
      exact hknot (hpk ▸ List.mem_map_of_mem Prod.fst hp)
    · exact (List.nodup_cons.mp hnd).2

/-- Claim C9: starting from a new map (`size = 2`, `count = 0`), after
sequentially inserting `N` distinct keys the count is `N`, the bucket
count satisfies `size ≥ N / LOAD_FACTOR` (`LOAD_FACTOR = 2`), and `size`
is always 2 (its initial value) times a power of two; moreover `size`
never decreases across any sequence of public operations. -/
theorem size_growth_and_monotonicity (V : Type) :
    (∀ kvs : List (Nat × V), (kvs.map Prod.fst).Nodup →
      (∀ p ∈ kvs, p.1 < 2 ^ 63) →
      (SplitOrderedList.runInserts (SplitOrderedList.new V) kvs).count = kvs.length ∧
      kvs.length / 2 ≤ (SplitOrderedList.runInserts (SplitOrderedList.new V) kvs).size ∧
      (∃ j, (SplitOrderedList.runInserts (SplitOrderedList.new V) kvs).size = 2 * 2 ^ j))
    ∧ (∀ (s : SplitOrderedList V) (ops : List (SplitOrderedList.MapOp V)),
        s.size ≤ (SplitOrderedList.runOps s ops).size) := by
  constructor
  · intro kvs hnd hvalid
    have hinv := seqInv_runInserts kvs (SplitOrderedList.new V) []
      (seqInv_new V) hvalid (by simp) hnd
    obtain ⟨hc, hb, hpow, _⟩ := hinv
    have hlen : ([] ++ kvs.map Prod.fst).length = kvs.length := by simp
    rw [hlen] at hc
    exact ⟨hc, by omega, hpow⟩
  · intro s ops
    exact runOps_size_mono ops s

theorem size_growth_and_monotonicity_witness :
    ((([((5 : Nat), (42 : Nat)), (6, 7)].map Prod.fst).Nodup ∧
      (∀ p ∈ [((5 : Nat), (42 : Nat)), (6, 7)], p.1 < 2 ^ 63))) ∧
    ((SplitOrderedList.runInserts (SplitOrderedList.new Nat)
        [(5, 42), (6, 7)]).count = 2 ∧
      2 / 2 ≤ (SplitOrderedList.runInserts (SplitOrderedList.new Nat)
        [(5, 42), (6, 7)]).size ∧
      (∃ j, (SplitOrderedList.runInserts (SplitOrderedList.new Nat)
        [(5, 42), (6, 7)]).size = 2 * 2 ^ j)) ∧
    (SplitOrderedList.new Nat).size
      ≤ (SplitOrderedList.runOps (SplitOrderedList.new Nat) []).size :=
  ⟨⟨by decide, by decide⟩,
   (size_growth_and_monotonicity Nat).1 [(5, 42), (6, 7)] (by decide) (by decide),
   (size_growth_and_monotonicity Nat).2 (SplitOrderedList.new Nat) []⟩
